import Mathlib

/-!
Shallow embedding of the Selik vocabulary tools:

* `src/loutwit.py` — the vocabulary analyzer (`VocabAnalyzer.parse_line`,
  `VocabAnalyzer.analyze`), modelled by `Selik.parse_line`,
  `Selik.selik_duplicates`, `Selik.meaning_duplicates` below.
* `src/louttit.py` — the quiz tool (`select_words`, `quiz_loop`,
  `save_memory`/JSON persistence), modelled by `Selik.select_words`,
  `Selik.quizRun`, `Selik.save`/`Selik.load` below.

Conventions of the embedding:
* Python strings are Lean `String`s; `str.strip()`, `str.split()`,
  `str.lower()` and the `re.sub` numbering strip are modelled character by
  character (`strip`, `splitWS`, `lowerStr`, `stripNumbering`), with the
  whitespace, digit and letter classes taken in their ASCII ranges (Python
  also accepts some exotic Unicode members of these classes; no vocabulary
  line or quiz input of interest uses them, and no claim depends on them).
* Python dicts are insertion-ordered association lists with unique keys;
  `dict.setdefault` appends at the end on a missing key and in-place update
  keeps the position of an existing key.
* The float arithmetic `1.0 - correct/asked` of `select_words` is modelled
  exactly in `ℚ`; in the ranges exercised here float rounding never
  reorders two rates, so the `ℚ` model is order-faithful.
* `json.dump`/`json.load` are modelled at the JSON-value level by
  `Selik.save`/`Selik.load` over an explicit `Json` AST; the textual
  printing/parsing layer of the Python standard library is taken as a
  faithful inverse pair.
-/

namespace Selik

/-- ASCII whitespace, as recognised by Python's `str.strip()` / `str.split()`
(space, tab, newline, carriage return, vertical tab, form feed). -/
def isWS (c : Char) : Bool :=
  c == ' ' || c == '\t' || c == '\n' || c == '\r' || c.toNat == 11 || c.toNat == 12

/-- Python `str.strip()` on the character list: drop whitespace at both ends. -/
def trimChars (cs : List Char) : List Char :=
  ((cs.dropWhile isWS).reverse.dropWhile isWS).reverse

/-- Python `str.strip()`. -/
def strip (s : String) : String := ⟨trimChars s.data⟩

/-- Helper of `splitWS`: accumulates the current word (reversed) while
scanning the characters. -/
def wordsAux : List Char → List Char → List String
  | [], acc => if acc.isEmpty then [] else [⟨acc.reverse⟩]
  | c :: cs, acc =>
    if isWS c then
      if acc.isEmpty then wordsAux cs [] else (⟨acc.reverse⟩ : String) :: wordsAux cs []
    else wordsAux cs (c :: acc)

/-- Python `str.split()` with no argument: split on runs of whitespace,
discarding empty pieces. -/
def splitWS (s : String) : List String := wordsAux s.data []

/-- Model of `re.sub(r'^\s*\d+\.\s*', '', s)`: if `s` starts with optional whitespace,
one or more digits and a literal dot, remove that prefix together with the
whitespace following the dot; otherwise return `s` unchanged. -/
def stripNumbering (s : String) : String :=
  let cs := s.data.dropWhile isWS
  let ds := cs.takeWhile Char.isDigit
  let rest := cs.dropWhile Char.isDigit
  if ds.isEmpty then s
  else
    match rest with
    | '.' :: r => ⟨r.dropWhile isWS⟩
    | _ => s

/-- Model of `VocabAnalyzer._contains_chinese`, per character: CJK Unified Ideographs
range U+4E00–U+9FFF. -/
def isChinese (c : Char) : Bool :=
  0x4e00 ≤ c.toNat && c.toNat ≤ 0x9fff

/-- Model of `VocabAnalyzer._contains_chinese`. -/
def containsChinese (s : String) : Bool := s.data.any isChinese

/-- Python `str.lower()`, restricted to the ASCII range (the only characters
that matter for the part-of-speech marker set). -/
def lowerChar (c : Char) : Char :=
  if 65 ≤ c.toNat ∧ c.toNat ≤ 90 then Char.ofNat (c.toNat + 32) else c

/-- Python `str.lower()` on a whole string. -/
def lowerStr (s : String) : String := ⟨s.data.map lowerChar⟩

/-- The fixed part-of-speech marker set of `VocabAnalyzer._is_pos_marker`. -/
def posMarkers : List String :=
  ["v.", "n.", "adj.", "adv.", "prep.", "conj.", "interj.", "pron."]

/-- Model of `VocabAnalyzer._is_pos_marker`: `text.lower() in pos_markers or text in
pos_markers`. -/
def is_pos_marker (t : String) : Bool :=
  posMarkers.contains (lowerStr t) || posMarkers.contains t

/-- Model of `VocabEntry` of `src/loutwit.py`. -/
structure VocabEntry where
  line_number : Nat
  original_line : String
  selik_word : String
  chinese_meaning : String
  part_of_speech : String
  is_defined : Bool
  file_path : String
deriving DecidableEq, Repr

/-- The `for i, part in enumerate(parts)` loop of `parse_line` that finds
`chinese_start_idx`: index of the first token containing a CJK character. -/
def chineseStart : List String → Option Nat
  | [] => none
  | t :: ts => if containsChinese t then some 0 else (chineseStart ts).map (· + 1)

/-- Model of `VocabAnalyzer.parse_line` of `src/loutwit.py`, line for line:
strip the numbering, split on whitespace, find the first token containing a
CJK character (`chineseStart` plays the role of the `for` loop), and build
the entry from the three branches of the Python code. -/
def parse_line (line : String) (line_number : Nat) (file_path : String) : VocabEntry :=
  let clean_line := stripNumbering (strip line)
  if clean_line = "" then
    ⟨line_number, line, "", "", "", false, file_path⟩
  else
    let parts := splitWS clean_line
    if parts.length = 0 then
      ⟨line_number, line, "", "", "", false, file_path⟩
    else
      match chineseStart parts with
      | none =>
        ⟨line_number, line, "", clean_line, "", false, file_path⟩
      | some 0 =>
        let last_part := parts.getLastD ""
        if is_pos_marker last_part then
          ⟨line_number, line, "", String.intercalate " " parts.dropLast, last_part,
            false, file_path⟩
        else
          ⟨line_number, line, "", clean_line, "", false, file_path⟩
      | some (i + 1) =>
        let selik_parts := parts.take (i + 1)
        let meaning_parts := parts.drop (i + 1)
        let last_m := meaning_parts.getLastD ""
        if 1 < meaning_parts.length ∧ is_pos_marker last_m = true then
          ⟨line_number, line, String.intercalate " " selik_parts,
            String.intercalate " " meaning_parts.dropLast, last_m, true, file_path⟩
        else
          ⟨line_number, line, String.intercalate " " selik_parts,
            String.intercalate " " meaning_parts, "", true, file_path⟩

/-! ### The quiz tool, `src/louttit.py` -/

/-- A value of the persisted memory: `{"asked": int, "correct": int,
"meaning": str}`, the `meaning` key being optional (absent in records
written by other sources; `select_words` reads it with
`stats.get('meaning', '')`). -/
structure PerfRecord where
  asked : Nat
  correct : Nat
  meaning : Option String
deriving DecidableEq, Repr

/-- The quiz tool's memory: a Python dict `word -> record`, modelled as an
insertion-ordered association list. -/
abbrev Memory := List (String × PerfRecord)

/-- Python dict lookup `memory[w]` / `memory.get(w)`: first matching key. -/
def lookup (w : String) : Memory → Option PerfRecord
  | [] => none
  | (k, r) :: t => if k = w then some r else lookup w t

/-- Replace the value at key `w` keeping its position (a Python in-place
`stats[...] = ...` update through the dict reference). -/
def updateAt : Memory → String → PerfRecord → Memory
  | [], _, _ => []
  | (k, v) :: t, w, r => (if k = w then (w, r) else (k, v)) :: updateAt t w r

/-- The error rate `1.0 - (correct/asked if asked>0 else 0)` of
`select_words`, in exact rational arithmetic. -/
def errRate (asked correct : Nat) : ℚ :=
  1 - (if 0 < asked then (correct : ℚ) / (asked : ℚ) else 0)

/-- The error rate `select_words` associates to word `w` in file mode:
stats default to `asked = 0, correct = 0` when `w` is absent from memory. -/
def rateOf (mem : Memory) (w : String) : ℚ :=
  let stats := (lookup w mem).getD ⟨0, 0, none⟩
  errRate stats.asked stats.correct

/-- One step of the insertion sort below: insert `x` in front of the first
element whose key is `≤` its own. -/
def insertDesc (key : α → ℚ) (x : α) : List α → List α
  | [] => [x]
  | y :: ys => if key y ≤ key x then x :: y :: ys else y :: insertDesc key x ys

/-- Stable descending sort by a `ℚ`-valued key; equal keys keep their input
order, exactly like Python's stable `list.sort(reverse=True, key=...)`. -/
def sortDesc (key : α → ℚ) : List α → List α
  | [] => []
  | x :: xs => insertDesc key x (sortDesc key xs)

/-- The `if limit: items = items[:limit]` step of `select_words`: `None` and
`0` are both falsy in Python, so only a non-zero `limit` truncates. -/
def truncate (limit : Option Nat) (l : List α) : List α :=
  match limit with
  | some n => if n ≠ 0 then l.take n else l
  | none => l

/-- Model of `select_words(vocab, memory, limit)` of `src/louttit.py`.  `vocab` is the
word→meaning dict as an ordered association list. -/
def select_words (vocab : List (String × String)) (mem : Memory)
    (limit : Option Nat) : List (String × String) :=
  let items :=
    if vocab.length ≠ 0 then
      vocab.map fun p =>
        let stats := (lookup p.1 mem).getD ⟨0, 0, none⟩
        (errRate stats.asked stats.correct, p.1, p.2)
    else
      (mem.filter fun p => decide (0 < p.2.asked ∧ p.2.correct < p.2.asked)).map
        fun p => (errRate p.2.asked p.2.correct, p.1, p.2.meaning.getD "")
  let sorted := sortDesc (fun x => x.1) items
  (truncate limit sorted).map fun x => (x.2.1, x.2.2)

/-- The body of `quiz_loop` for one answered (non-quit) prompt, `ans` already
stripped: `stats = memory.setdefault(w, {'asked': 0, 'correct': 0,
'meaning': m}); stats['asked'] += 1; if ans == w: stats['correct'] += 1`. -/
def answerWord (mem : Memory) (w m ans : String) : Memory :=
  match lookup w mem with
  | some r =>
      updateAt mem w ⟨r.asked + 1, r.correct + (if ans = w then 1 else 0), r.meaning⟩
  | none => mem ++ [(w, ⟨1, if ans = w then 1 else 0, some m⟩)]

/-- Model of `quiz_loop(words)` of `src/louttit.py` run on an explicit input stream:
returns the final memory together with the list of words whose prompts were
shown and answered (or quit at).  Each loop iteration strips the raw input;
a stripped input lowering to `"q"` breaks out of the loop before any record
is touched.  An exhausted input stream ends the run (the interactive program
would block there). -/
def quizRun : List (String × String) → List String → Memory → Memory × List String
  | [], _, mem => (mem, [])
  | _ :: _, [], mem => (mem, [])
  | (w, m) :: ws, raw :: ins, mem =>
    let ans := strip raw
    if lowerStr ans = "q" then (mem, [w])
    else
      let rest := quizRun ws ins (answerWord mem w m ans)
      (rest.1, w :: rest.2)

/-! ### The analyzer aggregation, `VocabAnalyzer.analyze` of `src/loutwit.py` -/

/-- The keys of a `defaultdict` built by appending, in first-insertion
order: each key of the input stream once, at the position of its first
occurrence. -/
def firstKeys [DecidableEq κ] : List κ → List κ
  | [] => []
  | k :: t => k :: (firstKeys t).filter (fun k' => decide (k' ≠ k))

/-- Model of `analyze`'s `selik_duplicates` after the final filter: among defined
entries, those with a non-empty Selik word are grouped by word
(`defaultdict(list)` keyed by `entry.selik_word`, guarded by
`if entry.selik_word:`), and only groups with more than one entry are
kept. -/
def selik_duplicates (entries : List VocabEntry) : List (String × List VocabEntry) :=
  let defined := entries.filter fun e => e.is_defined
  let wordEntries := defined.filter fun e => decide (e.selik_word ≠ "")
  let keys := firstKeys (wordEntries.map fun e => e.selik_word)
  (keys.map fun w => (w, wordEntries.filter fun e => decide (e.selik_word = w))).filter
    fun p => decide (1 < p.2.length)

/-- Model of `analyze`'s `meaning_duplicates` after the final filter: defined entries
grouped by the pair `(chinese_meaning, part_of_speech)`, keeping groups with
more than one entry. -/
def meaning_duplicates (entries : List VocabEntry) :
    List ((String × String) × List VocabEntry) :=
  let defined := entries.filter fun e => e.is_defined
  let keys := firstKeys (defined.map fun e => (e.chinese_meaning, e.part_of_speech))
  (keys.map fun k =>
    (k, defined.filter fun e => decide ((e.chinese_meaning, e.part_of_speech) = k))).filter
    fun p => decide (1 < p.2.length)

/-! ### JSON persistence, `save_memory` / the module-level `json.load` of
`src/louttit.py`, modelled at the JSON-value level -/

/-- A JSON value, restricted to the constructors the memory file uses. -/
inductive Json where
  | jnum (n : Int)
  | jstr (s : String)
  | jobj (kvs : List (String × Json))

/-- Lookup in a JSON object, first matching key. -/
def jLookup (k : String) : List (String × Json) → Option Json
  | [] => none
  | (k', v) :: t => if k' = k then some v else jLookup k t

/-- The JSON object `json.dump` writes for one record:
`{"asked": ..., "correct": ..., "meaning": ...}`, the `meaning` key present
exactly when the record carries one. -/
def encodeRecord (r : PerfRecord) : Json :=
  .jobj ([("asked", .jnum r.asked), ("correct", .jnum r.correct)] ++
    (match r.meaning with
     | some m => [("meaning", .jstr m)]
     | none => []))

/-- Reading one record back from its JSON object, as the quiz tool's uses of
a loaded record demand (`stats['asked']`, `stats['correct']`,
`stats.get('meaning', ...)`): integer `asked`/`correct` fields that fit a
`Nat`, an optional string `meaning`. -/
def decodeRecord : Json → Option PerfRecord
  | .jobj kvs =>
    match jLookup "asked" kvs, jLookup "correct" kvs with
    | some (.jnum a), some (.jnum c) =>
      if 0 ≤ a ∧ 0 ≤ c then
        some ⟨a.toNat, c.toNat,
          match jLookup "meaning" kvs with
          | some (.jstr m) => some m
          | _ => none⟩
      else none
    | _, _ => none
  | _ => none

/-- Model of `save_memory`: the JSON value `json.dump(memory, ...)` serialises. -/
def save (mem : Memory) : Json :=
  .jobj (mem.map fun p => (p.1, encodeRecord p.2))

/-- Read the entries of the stored object back one by one, failing on
shapes the quiz tool could not use. -/
def decodeEntries : List (String × Json) → Option Memory
  | [] => some []
  | (w, j) :: t =>
    match decodeRecord j, decodeEntries t with
    | some r, some rest => some ((w, r) :: rest)
    | _, _ => none

/-- The module-level `memory = json.load(f)`. -/
def load : Json → Option Memory
  | .jobj kvs => decodeEntries kvs
  | _ => none

/-! ## Lemmas about the memory dictionary and the quiz loop -/

theorem lookup_mem {mem : Memory} {w : String} {r : PerfRecord}
    (h : lookup w mem = some r) : (w, r) ∈ mem := by
  induction mem with
  | nil => simp [lookup] at h
  | cons p t ih =>
    obtain ⟨k, v⟩ := p
    by_cases hk : k = w
    · subst hk
      simp [lookup] at h
      subst h
      exact List.mem_cons_self _ _
    · simp [lookup, hk] at h
      exact List.mem_cons_of_mem _ (ih h)

theorem lookup_updateAt_self (mem : Memory) (w : String) (r : PerfRecord) :
    lookup w (updateAt mem w r) = (lookup w mem).map fun _ => r := by
  induction mem with
  | nil => rfl
  | cons p t ih =>
    obtain ⟨k, v⟩ := p
    simp only [updateAt]
    by_cases hk : k = w
    · rw [if_pos hk]
      simp [lookup, hk, ih]
    · rw [if_neg hk]
      simp [lookup, hk, ih]

theorem lookup_updateAt_ne (mem : Memory) {w w' : String} (r : PerfRecord)
    (h : w' ≠ w) : lookup w' (updateAt mem w r) = lookup w' mem := by
  induction mem with
  | nil => rfl
  | cons p t ih =>
    obtain ⟨k, v⟩ := p
    simp only [updateAt]
    by_cases hk : k = w
    · rw [if_pos hk]
      subst hk
      simp [lookup, Ne.symm h, ih]
    · rw [if_neg hk]
      simp [lookup, hk, ih]

theorem lookup_append_of_none {m1 : Memory} (m2 : Memory) {w : String}
    (h : lookup w m1 = none) : lookup w (m1 ++ m2) = lookup w m2 := by
  induction m1 with
  | nil => rfl
  | cons p t ih =>
    obtain ⟨k, v⟩ := p
    by_cases hk : k = w
    · simp [lookup, hk] at h
    · simp [lookup, hk] at h ⊢
      exact ih h

theorem lookup_append_of_some {m1 : Memory} (m2 : Memory) {w : String}
    {r : PerfRecord} (h : lookup w m1 = some r) :
    lookup w (m1 ++ m2) = some r := by
  induction m1 with
  | nil => simp [lookup] at h
  | cons p t ih =>
    obtain ⟨k, v⟩ := p
    by_cases hk : k = w
    · simp [lookup, hk] at h ⊢
      exact h
    · simp [lookup, hk] at h ⊢
      exact ih h

/-- What one answered prompt does to the prompted word's record: increment
`asked`, increment `correct` exactly on an exact match, seed the record
(with the prompted meaning) when it is absent, keep the stored meaning when
it is present. -/
theorem lookup_answerWord (mem : Memory) (w m ans : String) :
    lookup w (answerWord mem w m ans) =
      some (match lookup w mem with
        | some r => ⟨r.asked + 1, r.correct + (if ans = w then 1 else 0), r.meaning⟩
        | none => ⟨1, if ans = w then 1 else 0, some m⟩) := by
  unfold answerWord
  cases h : lookup w mem with
  | some r => simp [lookup_updateAt_self, h]
  | none =>
    rw [lookup_append_of_none _ h]
    simp [lookup]

/-- An answered prompt only touches the prompted word's record. -/
theorem lookup_answerWord_ne (mem : Memory) {w' w : String} (m ans : String)
    (h : w' ≠ w) : lookup w' (answerWord mem w m ans) = lookup w' mem := by
  unfold answerWord
  cases hw : lookup w mem with
  | some r => exact lookup_updateAt_ne mem _ h
  | none =>
    cases hw' : lookup w' mem with
    | some r' => exact lookup_append_of_some _ hw'
    | none =>
      rw [lookup_append_of_none _ hw']
      simp [lookup, Ne.symm h]

/-- Invariant `correct ≤ asked` holds for every record after an answered prompt if it
held before. -/
theorem mem_updateAt {mem : Memory} {w : String} {r : PerfRecord}
    {p : String × PerfRecord} (hp : p ∈ updateAt mem w r) :
    p = (w, r) ∨ p ∈ mem := by
  induction mem with
  | nil => simp [updateAt] at hp
  | cons q t ih =>
    obtain ⟨k, v⟩ := q
    simp only [updateAt, List.mem_cons] at hp
    rcases hp with hp | hp
    · by_cases hk : k = w
      · rw [if_pos hk] at hp
        exact Or.inl hp
      · rw [if_neg hk] at hp
        exact Or.inr (hp ▸ List.mem_cons_self _ _)
    · rcases ih hp with hh | hh
      · exact Or.inl hh
      · exact Or.inr (List.mem_cons_of_mem _ hh)

theorem answerWord_inv {mem : Memory} (w m ans : String)
    (h : ∀ p ∈ mem, p.2.correct ≤ p.2.asked) :
    ∀ p ∈ answerWord mem w m ans, p.2.correct ≤ p.2.asked := by
  intro p hp
  unfold answerWord at hp
  cases hw : lookup w mem with
  | some r =>
    rw [hw] at hp
    rcases mem_updateAt hp with rfl | hp
    · have hr : r.correct ≤ r.asked := h _ (lookup_mem hw)
      have hb : (if ans = w then 1 else 0) ≤ 1 := by split <;> omega
      show r.correct + (if ans = w then 1 else 0) ≤ r.asked + 1
      omega
    · exact h _ hp
  | none =>
    rw [hw] at hp
    rcases List.mem_append.1 hp with hp | hp
    · exact h _ hp
    · simp at hp
      subst hp
      show (if ans = w then 1 else 0) ≤ 1
      split <;> omega

/-- An answered prompt never decreases any record's counters and never
changes a stored meaning. -/
theorem answerWord_mono {mem : Memory} (w m ans : String) {w' : String}
    {r₀ : PerfRecord} (h : lookup w' mem = some r₀) :
    ∃ r₁, lookup w' (answerWord mem w m ans) = some r₁ ∧
      r₀.asked ≤ r₁.asked ∧ r₀.correct ≤ r₁.correct ∧ r₁.meaning = r₀.meaning := by
  by_cases hw : w' = w
  · subst hw
    rw [lookup_answerWord mem w' m ans, h]
    exact ⟨_, rfl, by simp, by simp, rfl⟩
  · rw [lookup_answerWord_ne mem m ans hw, h]
    exact ⟨r₀, rfl, le_refl _, le_refl _, rfl⟩

theorem quizRun_nil (ins : List String) (mem : Memory) :
    quizRun [] ins mem = (mem, []) := rfl

theorem quizRun_noInput (wm : String × String) (ws : List (String × String))
    (mem : Memory) : quizRun (wm :: ws) [] mem = (mem, []) := rfl

theorem quizRun_cons (w m : String) (ws : List (String × String))
    (raw : String) (ins : List String) (mem : Memory) :
    quizRun ((w, m) :: ws) (raw :: ins) mem =
      if lowerStr (strip raw) = "q" then (mem, [w])
      else ((quizRun ws ins (answerWord mem w m (strip raw))).1,
        w :: (quizRun ws ins (answerWord mem w m (strip raw))).2) := rfl

/-- The record invariant `correct ≤ asked` is preserved by a whole quiz
run. -/
theorem quizRun_inv (ws : List (String × String)) (ins : List String)
    (mem : Memory) (h : ∀ p ∈ mem, p.2.correct ≤ p.2.asked) :
    ∀ p ∈ (quizRun ws ins mem).1, p.2.correct ≤ p.2.asked := by
  induction ws generalizing ins mem with
  | nil => simpa [quizRun_nil] using h
  | cons wm ws ih =>
    obtain ⟨w, m⟩ := wm
    cases ins with
    | nil => simpa [quizRun_noInput] using h
    | cons raw ins =>
      rw [quizRun_cons]
      by_cases hq : lowerStr (strip raw) = "q"
      · simpa [hq] using h
      · simpa [hq] using ih ins _ (answerWord_inv w m (strip raw) h)

/-- Counters never decrease, and stored meanings never change, across a
whole quiz run. -/
theorem quizRun_mono (ws : List (String × String)) (ins : List String)
    (mem : Memory) {w' : String} {r₀ : PerfRecord}
    (h : lookup w' mem = some r₀) :
    ∃ r₁, lookup w' (quizRun ws ins mem).1 = some r₁ ∧
      r₀.asked ≤ r₁.asked ∧ r₀.correct ≤ r₁.correct ∧ r₁.meaning = r₀.meaning := by
  induction ws generalizing ins mem r₀ with
  | nil => exact ⟨r₀, by simpa [quizRun_nil] using h, le_refl _, le_refl _, rfl⟩
  | cons wm ws ih =>
    obtain ⟨w, m⟩ := wm
    cases ins with
    | nil => exact ⟨r₀, by simpa [quizRun_noInput] using h, le_refl _, le_refl _, rfl⟩
    | cons raw ins =>
      rw [quizRun_cons]
      by_cases hq : lowerStr (strip raw) = "q"
      · exact ⟨r₀, by simpa [hq] using h, le_refl _, le_refl _, rfl⟩
      · obtain ⟨r₁, h1, ha1, hc1, hm1⟩ := answerWord_mono w m (strip raw) h
        obtain ⟨r₂, h2, ha2, hc2, hm2⟩ := ih ins _ h1
        refine ⟨r₂, ?_, le_trans ha1 ha2, le_trans hc1 hc2, hm2.trans hm1⟩
        simpa [hq] using h2

/-! ## Lemmas about the selector's sort -/

theorem insertDesc_perm (key : α → ℚ) (x : α) (l : List α) :
    (insertDesc key x l).Perm (x :: l) := by
  induction l with
  | nil => exact List.Perm.refl _
  | cons y ys ih =>
    unfold insertDesc
    by_cases h : key y ≤ key x
    · rw [if_pos h]
    · rw [if_neg h]
      exact (ih.cons y).trans (List.Perm.swap x y ys)

theorem sortDesc_perm (key : α → ℚ) (l : List α) :
    (sortDesc key l).Perm l := by
  induction l with
  | nil => exact List.Perm.refl _
  | cons x xs ih => exact (insertDesc_perm key x _).trans (ih.cons x)

theorem mem_insertDesc {key : α → ℚ} {x z : α} {l : List α}
    (h : z ∈ insertDesc key x l) : z = x ∨ z ∈ l := by
  have := (insertDesc_perm key x l).mem_iff.1 h
  simpa using this

theorem insertDesc_pairwise (key : α → ℚ) (x : α) {l : List α}
    (hl : l.Pairwise fun a b => key b ≤ key a) :
    (insertDesc key x l).Pairwise fun a b => key b ≤ key a := by
  induction l with
  | nil => simp [insertDesc]
  | cons y ys ih =>
    rw [List.pairwise_cons] at hl
    obtain ⟨hy, hys⟩ := hl
    unfold insertDesc
    by_cases h : key y ≤ key x
    · rw [if_pos h]
      refine List.Pairwise.cons ?_ (List.Pairwise.cons hy hys)
      intro z hz
      rcases List.mem_cons.1 hz with rfl | hz
      · exact h
      · exact le_trans (hy z hz) h
    · rw [if_neg h]
      refine List.Pairwise.cons ?_ (ih hys)
      intro z hz
      rcases mem_insertDesc hz with rfl | hz
      · exact le_of_lt (lt_of_not_le h)
      · exact hy z hz

theorem sortDesc_pairwise (key : α → ℚ) (l : List α) :
    (sortDesc key l).Pairwise fun a b => key b ≤ key a := by
  induction l with
  | nil => simp [sortDesc]
  | cons x xs ih => exact insertDesc_pairwise key x ih

/-! ## Unfoldings of `select_words` -/

theorem truncate_none (l : List α) : truncate none l = l := rfl

theorem truncate_some {n : Nat} (hn : n ≠ 0) (l : List α) :
    truncate (some n) l = l.take n := by
  show (if n ≠ 0 then l.take n else l) = l.take n
  rw [if_pos hn]

theorem truncate_zero (l : List α) : truncate (some 0) l = l := rfl

theorem select_words_file_none (vocab : List (String × String)) (mem : Memory)
    (hv : vocab ≠ []) :
    select_words vocab mem none =
      (sortDesc (fun x : ℚ × String × String => x.1)
        (vocab.map fun p : String × String => ((rateOf mem p.1 : ℚ), p.1, p.2))).map
        fun x : ℚ × String × String => (x.2.1, x.2.2) := by
  have hlen : vocab.length ≠ 0 := fun h => hv (List.length_eq_zero.1 h)
  unfold select_words
  rw [if_pos hlen]
  rfl

theorem select_words_file_take (vocab : List (String × String)) (mem : Memory)
    {n : Nat} (hv : vocab ≠ []) (hn : n ≠ 0) :
    select_words vocab mem (some n) = (select_words vocab mem none).take n := by
  have hlen : vocab.length ≠ 0 := fun h => hv (List.length_eq_zero.1 h)
  unfold select_words
  rw [if_pos hlen]
  simp only [truncate_some hn, truncate_none, List.map_take]

theorem select_words_memory_none (mem : Memory) :
    select_words [] mem none =
      (sortDesc (fun x : ℚ × String × String => x.1)
        ((mem.filter fun p => decide (0 < p.2.asked ∧ p.2.correct < p.2.asked)).map
          fun p : String × PerfRecord =>
            ((errRate p.2.asked p.2.correct : ℚ), p.1, p.2.meaning.getD ""))).map
        fun x : ℚ × String × String => (x.2.1, x.2.2) := by
  unfold select_words
  rw [if_neg (by simp)]
  rfl

/-- A word absent from memory gets the maximal error rate `1`. -/
theorem rateOf_of_none {mem : Memory} {w : String} (h : lookup w mem = none) :
    rateOf mem w = 1 := by
  simp [rateOf, h, errRate]

theorem lookup_of_mem_nodup {mem : Memory} (hk : (mem.map Prod.fst).Nodup)
    {p : String × PerfRecord} (hp : p ∈ mem) : lookup p.1 mem = some p.2 := by
  induction mem with
  | nil => simp at hp
  | cons q t ih =>
    obtain ⟨k, v⟩ := q
    rw [List.map_cons, List.nodup_cons] at hk
    rcases List.mem_cons.1 hp with rfl | hp
    · simp [lookup]
    · have hne : k ≠ p.1 := by
        intro hkp
        exact hk.1 (hkp ▸ List.mem_map.2 ⟨p, hp, rfl⟩)
      simp [lookup, hne, ih hk.2 hp]

/-! ## Claims C2 and C4: the selector -/

/-- C2 (counterexample): as stated, the claim requires the output to be
truncated to the first `limit` items whenever a limit is provided; but the
Python guard `if limit:` treats a provided `limit = 0` as falsy, so with
`limit = 0` the whole list is returned instead of its first `0` items. -/
theorem C2_limit_zero_cex :
    select_words [("A", "m")] [] (some 0) ≠
      (select_words [("A", "m")] [] none).take 0 := by
  have h1 : select_words [("A", "m")] [] (some 0) = [("A", "m")] := by
    norm_num +decide [select_words, lookup, errRate, sortDesc, insertDesc, truncate]
  rw [h1, List.take_zero]
  simp

/-- C2 (amended): in file mode `select_words` pairs every vocabulary word
with the error rate `1 - (correct/asked if asked > 0 else 0)` taken from
memory with default `asked = 0, correct = 0` (so a never-asked word gets
rate `1`), returns the `(word, meaning)` pairs of the vocabulary reordered
descending by that rate, and truncates to the first `limit` items when a
provided limit is non-zero; with memory `{A: 10/10, B: 0/0}`, `B` (rate 1)
precedes `A` (rate 0). -/
theorem C2_select_words_file_mode (vocab : List (String × String))
    (mem : Memory) (n : Nat) (hv : vocab ≠ []) (hn : n ≠ 0) :
    (select_words vocab mem none).Perm vocab ∧
    (select_words vocab mem none).Pairwise
      (fun a b : String × String => rateOf mem b.1 ≤ rateOf mem a.1) ∧
    (∀ w, lookup w mem = none → rateOf mem w = 1) ∧
    select_words vocab mem (some n) = (select_words vocab mem none).take n ∧
    select_words [("A", "mA"), ("B", "mB")]
      [("A", ⟨10, 10, none⟩), ("B", ⟨0, 0, none⟩)] none =
      [("B", "mB"), ("A", "mA")] := by
  refine ⟨?_, ?_, fun w hw => rateOf_of_none hw,
    select_words_file_take vocab mem hv hn, ?_⟩
  · rw [select_words_file_none vocab mem hv]
    have h1 := (sortDesc_perm (fun x : ℚ × String × String => x.1)
      (vocab.map fun p : String × String => ((rateOf mem p.1 : ℚ), p.1, p.2))).map
      (fun x : ℚ × String × String => (x.2.1, x.2.2))
    have h2 : (vocab.map fun p : String × String =>
        ((rateOf mem p.1 : ℚ), p.1, p.2)).map
          (fun x : ℚ × String × String => (x.2.1, x.2.2)) = vocab := by
      rw [List.map_map]
      have hgf : ((fun x : ℚ × String × String => (x.2.1, x.2.2)) ∘
          fun p : String × String => ((rateOf mem p.1 : ℚ), p.1, p.2)) = id :=
        funext fun p => Prod.mk.eta
      rw [hgf, List.map_id]
    rw [h2] at h1
    exact h1
  · rw [select_words_file_none vocab mem hv, List.pairwise_map]
    have hkey : ∀ x ∈ sortDesc (fun x : ℚ × String × String => x.1)
        (vocab.map fun p : String × String => ((rateOf mem p.1 : ℚ), p.1, p.2)),
        x.1 = rateOf mem x.2.1 := by
      intro x hx
      have hx' := (sortDesc_perm (fun x : ℚ × String × String => x.1) _).subset hx
      rcases List.mem_map.1 hx' with ⟨p, _, rfl⟩
      rfl
    refine List.Pairwise.imp_of_mem ?_ (sortDesc_pairwise _ _)
    intro a b ha hb hab
    show rateOf mem b.2.1 ≤ rateOf mem a.2.1
    rw [← hkey a ha, ← hkey b hb]
    exact hab
  · norm_num +decide [select_words, lookup, errRate, sortDesc, insertDesc, truncate]

/-- C4: in memory-only mode `select_words` returns exactly the stored words
with `asked > 0` and `correct < asked`, each paired with the record's
meaning (`""` when absent), ordered descending by the error rate
`1 - correct/asked`; a word with `asked = 5, correct = 5` is excluded. -/
theorem C4_select_words_memory_mode (mem : Memory)
    (hk : (mem.map Prod.fst).Nodup) :
    (∀ w m', (w, m') ∈ select_words [] mem none ↔
      ∃ r, (w, r) ∈ mem ∧ 0 < r.asked ∧ r.correct < r.asked ∧
        m' = r.meaning.getD "") ∧
    (select_words [] mem none).Pairwise
      (fun a b : String × String => rateOf mem b.1 ≤ rateOf mem a.1) ∧
    select_words [] [("A", ⟨5, 5, some "mA"⟩), ("B", ⟨4, 1, some "mB"⟩)] none =
      [("B", "mB")] := by
  refine ⟨?_, ?_, ?_⟩
  · intro w m'
    rw [select_words_memory_none]
    constructor
    · intro h
      rcases List.mem_map.1 h with ⟨x, hx, hgx⟩
      have hx' := (sortDesc_perm (fun x : ℚ × String × String => x.1) _).subset hx
      rcases List.mem_map.1 hx' with ⟨p, hp, rfl⟩
      have hp' := List.mem_filter.1 hp
      have hcond := of_decide_eq_true hp'.2
      refine ⟨p.2, ?_, hcond.1, hcond.2, ?_⟩
      · have hw : w = p.1 := congrArg Prod.fst hgx.symm
        rw [hw, Prod.mk.eta]
        exact hp'.1
      · exact (congrArg Prod.snd hgx).symm
    · rintro ⟨r, hr, ha, hc, rfl⟩
      have hp : (w, r) ∈ mem.filter
          fun p => decide (0 < p.2.asked ∧ p.2.correct < p.2.asked) :=
        List.mem_filter.2 ⟨hr, decide_eq_true ⟨ha, hc⟩⟩
      have h1 : ((errRate r.asked r.correct : ℚ), w, r.meaning.getD "") ∈
          (mem.filter fun p => decide (0 < p.2.asked ∧ p.2.correct < p.2.asked)).map
            (fun p : String × PerfRecord =>
              ((errRate p.2.asked p.2.correct : ℚ), p.1, p.2.meaning.getD "")) :=
        List.mem_map.2 ⟨(w, r), hp, rfl⟩
      have h2 := ((sortDesc_perm (fun x : ℚ × String × String => x.1) _).mem_iff).2 h1
      exact List.mem_map.2 ⟨_, h2, rfl⟩
  · rw [select_words_memory_none, List.pairwise_map]
    have hkey : ∀ x ∈ sortDesc (fun x : ℚ × String × String => x.1)
        ((mem.filter fun p => decide (0 < p.2.asked ∧ p.2.correct < p.2.asked)).map
          fun p : String × PerfRecord =>
            ((errRate p.2.asked p.2.correct : ℚ), p.1, p.2.meaning.getD "")),
        x.1 = rateOf mem x.2.1 := by
      intro x hx
      have hx' := (sortDesc_perm (fun x : ℚ × String × String => x.1) _).subset hx
      rcases List.mem_map.1 hx' with ⟨p, hp, rfl⟩
      have hmem : p ∈ mem := (List.mem_filter.1 hp).1
      show errRate p.2.asked p.2.correct = rateOf mem p.1
      rw [rateOf, lookup_of_mem_nodup hk hmem]
      rfl
    refine List.Pairwise.imp_of_mem ?_ (sortDesc_pairwise _ _)
    intro a b ha hb hab
    show rateOf mem b.2.1 ≤ rateOf mem a.2.1
    rw [← hkey a ha, ← hkey b hb]
    exact hab
  · norm_num +decide [select_words, errRate, sortDesc, insertDesc, truncate,
      List.filter]

/-! ## Claims C3, C6, C9, C10: the quiz loop -/

/-- C3 (counterexample): the input `" q "` is not equal to `"q"`
case-insensitively, so under the claim it is "any other input" and must
increment the prompted word's `timesAsked`; but the code strips the input
before the quit check, so `" q "` quits and no record is created. -/
theorem C3_untrimmed_quit_cex :
    lowerStr " q " ≠ "q" ∧
    quizRun [("A", "m")] [" q "] [] = ([], ["A"]) ∧
    lookup "A" (quizRun [("A", "m")] [" q "] []).1 = none := by decide

/-- C3 (amended): at every prompt, an input whose whitespace-trimmed form
equals `"q"` case-insensitively ends the session immediately with every
record unchanged; any input whose trimmed form does not, increments the
prompted word's `timesAsked` (first creating its record with the prompt's
meaning if absent) and increments `timesCorrect` iff the trimmed input
equals the word exactly and case-sensitively; a session answering wrong
once and then `"q"` updates exactly one record, to `asked = 1, correct =
0`, and prompts no further words. -/
theorem C3_quiz_step (w m : String) (ws : List (String × String))
    (raw : String) (ins : List String) (mem : Memory) :
    (lowerStr (strip raw) = "q" →
      quizRun ((w, m) :: ws) (raw :: ins) mem = (mem, [w])) ∧
    (lowerStr (strip raw) ≠ "q" →
      quizRun ((w, m) :: ws) (raw :: ins) mem =
        ((quizRun ws ins (answerWord mem w m (strip raw))).1,
          w :: (quizRun ws ins (answerWord mem w m (strip raw))).2) ∧
      lookup w (answerWord mem w m (strip raw)) =
        some ⟨((lookup w mem).getD ⟨0, 0, some m⟩).asked + 1,
          ((lookup w mem).getD ⟨0, 0, some m⟩).correct +
            (if strip raw = w then 1 else 0),
          ((lookup w mem).getD ⟨0, 0, some m⟩).meaning⟩) ∧
    quizRun [("A", "m1"), ("B", "m2"), ("C", "m3")] ["x", "q"] [] =
      ([("A", ⟨1, 0, some "m1"⟩)], ["A", "B"]) := by
  refine ⟨fun h => ?_, fun h => ⟨?_, ?_⟩, by decide⟩
  · rw [quizRun_cons, if_pos h]
  · rw [quizRun_cons, if_neg h]
  · rw [lookup_answerWord]
    cases h' : lookup w mem with
    | none => simp
    | some r => rfl

/-- C6 (counterexample): quizzing the same word twice with different
glosses (`"m1"` then `"m2"`), both answered, leaves the stored meaning at
the first-seen gloss `"m1"`, not the most recent prompt's gloss `"m2"`:
`dict.setdefault` seeds the meaning only when the record is created and
the loop never overwrites it. -/
theorem C6_meaning_last_seen_cex :
    lookup "w" (quizRun [("w", "m1"), ("w", "m2")] ["x", "y"] []).1 =
      some ⟨2, 0, some "m1"⟩ ∧ ("m1" : String) ≠ "m2" := by decide

/-- C6 (amended): the stored meaning is the first-seen gloss: an answered
prompt seeds the meaning with the prompted gloss exactly when it creates
the record, keeps the stored meaning unchanged when the record already
exists, and a whole quiz run never changes the meaning of a pre-existing
record. -/
theorem C6_meaning_first_seen (mem : Memory) (w m a : String) :
    (lookup w mem = none →
      lookup w (answerWord mem w m a) =
        some ⟨1, if a = w then 1 else 0, some m⟩) ∧
    (∀ r, lookup w mem = some r →
      lookup w (answerWord mem w m a) =
        some ⟨r.asked + 1, r.correct + (if a = w then 1 else 0), r.meaning⟩) ∧
    (∀ ws ins r, lookup w mem = some r →
      ∃ r', lookup w (quizRun ws ins mem).1 = some r' ∧
        r'.meaning = r.meaning) := by
  refine ⟨fun h => ?_, fun r h => ?_, fun ws ins r h => ?_⟩
  · rw [lookup_answerWord, h]
  · rw [lookup_answerWord, h]
  · obtain ⟨r', h1, _, _, h4⟩ := quizRun_mono ws ins mem h
    exact ⟨r', h1, h4⟩

/-- C9: every record satisfies `correct ≤ asked` after any sequence of
answered prompts, provided every record satisfied it before, and no quiz
run ever decreases a record's `timesAsked` or `timesCorrect`. -/
theorem C9_record_invariant (ws : List (String × String)) (ins : List String)
    (mem : Memory) (h : ∀ p ∈ mem, p.2.correct ≤ p.2.asked) :
    (∀ p ∈ (quizRun ws ins mem).1, p.2.correct ≤ p.2.asked) ∧
    (∀ w r₀, lookup w mem = some r₀ →
      ∃ r₁, lookup w (quizRun ws ins mem).1 = some r₁ ∧
        r₀.asked ≤ r₁.asked ∧ r₀.correct ≤ r₁.correct) := by
  refine ⟨quizRun_inv ws ins mem h, fun w r₀ hw => ?_⟩
  obtain ⟨r₁, h1, h2, h3, _⟩ := quizRun_mono ws ins mem hw
  exact ⟨r₁, h1, h2, h3⟩

/-- C10: when the quizzed word is itself `"q"` or `"Q"`, answering with the
correct spelling trips the case-insensitive quit check first: the session
ends at once with the memory untouched, so the word's own correct answer
can never increment its `timesCorrect`. -/
theorem C10_quit_word_unscored (w m : String) (hw : w = "q" ∨ w = "Q")
    (raw : String) (hr : strip raw = w) (ws : List (String × String))
    (ins : List String) (mem : Memory) :
    quizRun ((w, m) :: ws) (raw :: ins) mem = (mem, [w]) ∧
    lookup w (quizRun ((w, m) :: ws) (raw :: ins) mem).1 = lookup w mem := by
  have hq : lowerStr (strip raw) = "q" := by
    rw [hr]
    rcases hw with rfl | rfl <;> decide
  refine ⟨?_, ?_⟩ <;> rw [quizRun_cons, if_pos hq]

/-! ## Lemmas about the parser -/

theorem chineseStart_eq_some {l : List String} {i : Nat} (hi : i < l.length)
    (hc : containsChinese (l.getD i "") = true)
    (hfirst : ∀ j, j < i → containsChinese (l.getD j "") = false) :
    chineseStart l = some i := by
  induction l generalizing i with
  | nil => simp at hi
  | cons t ts ih =>
    cases i with
    | zero =>
      have hct : containsChinese t = true := by simpa using hc
      simp [chineseStart, hct]
    | succ n =>
      have h0 : containsChinese t = false := by simpa using hfirst 0 (Nat.succ_pos n)
      have hn : n < ts.length := by simpa [Nat.succ_lt_succ_iff] using hi
      have hcn : containsChinese (ts.getD n "") = true := by simpa using hc
      have hfn : ∀ j, j < n → containsChinese (ts.getD j "") = false := by
        intro j hj
        simpa using hfirst (j + 1) (by omega)
      simp [chineseStart, h0, ih hn hcn hfn]

theorem isChinese_lowerChar {c : Char} (h : isChinese c = true) :
    lowerChar c = c := by
  have hge : 0x4e00 ≤ c.toNat := by
    unfold isChinese at h
    rw [Bool.and_eq_true, decide_eq_true_eq, decide_eq_true_eq] at h
    exact h.1
  unfold lowerChar
  rw [if_neg]
  rintro ⟨-, h2⟩
  omega

theorem containsChinese_lowerStr {t : String} (h : containsChinese t = true) :
    containsChinese (lowerStr t) = true := by
  unfold containsChinese at h ⊢
  rw [List.any_eq_true] at h ⊢
  obtain ⟨c, hc, hcc⟩ := h
  refine ⟨lowerChar c, ?_, ?_⟩
  · show lowerChar c ∈ (t.data.map lowerChar)
    exact List.mem_map.2 ⟨c, hc, rfl⟩
  · rw [isChinese_lowerChar hcc]
    exact hcc

theorem mem_posMarkers_no_chinese {s : String}
    (h : posMarkers.contains s = true) : containsChinese s = false := by
  simp [posMarkers] at h
  rcases h with rfl | rfl | rfl | rfl | rfl | rfl | rfl | rfl <;> decide

/-- A token that is a part-of-speech marker contains no CJK character. -/
theorem marker_no_chinese {t : String} (h : is_pos_marker t = true) :
    containsChinese t = false := by
  by_contra hcc
  rw [Bool.not_eq_false] at hcc
  unfold is_pos_marker at h
  rw [Bool.or_eq_true] at h
  rcases h with h | h
  · have h1 := containsChinese_lowerStr hcc
    rw [mem_posMarkers_no_chinese h] at h1
    exact Bool.false_ne_true h1
  · rw [mem_posMarkers_no_chinese h] at hcc
    exact Bool.false_ne_true hcc

/-- A token containing a CJK character is never a part-of-speech marker. -/
theorem chinese_not_marker {t : String} (h : containsChinese t = true) :
    is_pos_marker t = false := by
  by_contra hm
  rw [Bool.not_eq_false] at hm
  rw [marker_no_chinese hm] at h
  exact Bool.false_ne_true h

/-! ## Claims C1 and C5: the parser -/

/-- C1: when the token list of a line (after numbering strip and trim) has
its first CJK-bearing token at an index `i > 0`, `parse_line` returns a
defined entry whose word joins the tokens before `i` and whose meaning
joins the tokens from `i` on, with a trailing part-of-speech marker
extracted into `part_of_speech` and excluded from the meaning; in
particular `"3. ora pelan 走 v."` parses to word `"ora pelan"`, meaning
`"走"`, pos `"v."`, defined. -/
theorem C1_parse_line_defined (line : String) (ln : Nat) (fp : String) (i : Nat)
    (hi : i < (splitWS (stripNumbering (strip line))).length)
    (h0 : 0 < i)
    (hc : containsChinese ((splitWS (stripNumbering (strip line))).getD i "") = true)
    (hfirst : ∀ j, j < i →
      containsChinese ((splitWS (stripNumbering (strip line))).getD j "") = false) :
    (parse_line line ln fp).is_defined = true ∧
    (parse_line line ln fp).selik_word =
      String.intercalate " " ((splitWS (stripNumbering (strip line))).take i) ∧
    (if is_pos_marker
        (((splitWS (stripNumbering (strip line))).drop i).getLastD "") = true then
      (parse_line line ln fp).chinese_meaning =
        String.intercalate " "
          ((splitWS (stripNumbering (strip line))).drop i).dropLast ∧
      (parse_line line ln fp).part_of_speech =
        ((splitWS (stripNumbering (strip line))).drop i).getLastD ""
    else
      (parse_line line ln fp).chinese_meaning =
        String.intercalate " " ((splitWS (stripNumbering (strip line))).drop i) ∧
      (parse_line line ln fp).part_of_speech = "") ∧
    parse_line "3. ora pelan 走 v." 1 "f" =
      ⟨1, "3. ora pelan 走 v.", "ora pelan", "走", "v.", true, "f"⟩ := by
  have hsplit0 : splitWS "" = [] := rfl
  have hne : ¬(stripNumbering (strip line) = "") := by
    intro h
    rw [h, hsplit0] at hi
    exact Nat.not_lt_zero i (by simpa using hi)
  have hlen : ¬((splitWS (stripNumbering (strip line))).length = 0) := by omega
  obtain ⟨i', rfl⟩ : ∃ i', i = i' + 1 := ⟨i - 1, by omega⟩
  have hcs : chineseStart (splitWS (stripNumbering (strip line))) = some (i' + 1) :=
    chineseStart_eq_some hi hc hfirst
  have key : parse_line line ln fp =
      (if 1 < ((splitWS (stripNumbering (strip line))).drop (i' + 1)).length ∧
          is_pos_marker
            (((splitWS (stripNumbering (strip line))).drop (i' + 1)).getLastD "") =
            true then
        ⟨ln, line,
          String.intercalate " " ((splitWS (stripNumbering (strip line))).take (i' + 1)),
          String.intercalate " "
            ((splitWS (stripNumbering (strip line))).drop (i' + 1)).dropLast,
          ((splitWS (stripNumbering (strip line))).drop (i' + 1)).getLastD "",
          true, fp⟩
      else
        ⟨ln, line,
          String.intercalate " " ((splitWS (stripNumbering (strip line))).take (i' + 1)),
          String.intercalate " " ((splitWS (stripNumbering (strip line))).drop (i' + 1)),
          "", true, fp⟩) := by
    simp only [parse_line]
    rw [if_neg hne, if_neg hlen, hcs]
  rw [key]
  by_cases hm : is_pos_marker
      (((splitWS (stripNumbering (strip line))).drop (i' + 1)).getLastD "") = true
  · have hlen2 : 1 < ((splitWS (stripNumbering (strip line))).drop (i' + 1)).length := by
      by_contra hnot
      have hdl : ((splitWS (stripNumbering (strip line))).drop (i' + 1)).length =
          (splitWS (stripNumbering (strip line))).length - (i' + 1) :=
        List.length_drop _ _
      have h1 : ((splitWS (stripNumbering (strip line))).drop (i' + 1)).length = 1 := by
        omega
      obtain ⟨t, ht⟩ := List.length_eq_one.1 h1
      have htD : t = (splitWS (stripNumbering (strip line))).getD (i' + 1) "" := by
        have := congrArg (fun l => l.getD 0 "") ht
        simpa [List.getD_eq_getElem?_getD, List.getElem?_drop] using this.symm
      rw [ht] at hm
      have : is_pos_marker t = false := chinese_not_marker (htD ▸ hc)
      simp [List.getLastD] at hm
      rw [this] at hm
      exact Bool.false_ne_true hm
    rw [if_pos hm, if_pos ⟨hlen2, hm⟩]
    exact ⟨rfl, rfl, ⟨rfl, rfl⟩, by decide⟩
  · rw [if_neg hm, if_neg (fun hand => hm hand.2)]
    exact ⟨rfl, rfl, ⟨rfl, rfl⟩, by decide⟩

/-- C5 (counterexample): the claim requires `"7. v."` to parse with an
empty meaning and pos `"v."`; the code instead lands in the no-CJK branch
and returns meaning `"v."` with empty pos. -/
theorem C5_lone_pos_marker_cex :
    ¬((parse_line "7. v." 1 "f").chinese_meaning = "" ∧
      (parse_line "7. v." 1 "f").part_of_speech = "v.") := by decide

/-- C5 (amended): a line that, after stripping the numbering and
whitespace, consists of exactly one token that is a part-of-speech marker
contains no CJK character, so `parse_line` takes the no-CJK undefined
branch: the meaning is the whole remainder (the marker itself) and the
`part_of_speech` field stays empty. -/
theorem C5_lone_pos_marker (line : String) (ln : Nat) (fp : String)
    (t : String) (hp : splitWS (stripNumbering (strip line)) = [t])
    (hm : is_pos_marker t = true) :
    parse_line line ln fp =
      ⟨ln, line, "", stripNumbering (strip line), "", false, fp⟩ := by
  have hne : ¬(stripNumbering (strip line) = "") := by
    intro h
    rw [h] at hp
    have hnil : ([] : List String) = [t] := hp
    exact List.cons_ne_nil t [] hnil.symm
  have hlen : ¬((splitWS (stripNumbering (strip line))).length = 0) := by
    rw [hp]
    simp
  have hcs : chineseStart (splitWS (stripNumbering (strip line))) = none := by
    rw [hp]
    simp [chineseStart, marker_no_chinese hm]
  simp only [parse_line]
  rw [if_neg hne, if_neg hlen, hcs]

/-! ## Claim C8: the persistence round-trip -/

theorem decodeRecord_encodeRecord (r : PerfRecord) :
    decodeRecord (encodeRecord r) = some r := by
  obtain ⟨a, c, m⟩ := r
  cases m <;> simp [encodeRecord, decodeRecord, jLookup]

theorem load_save (mem : Memory) : load (save mem) = some mem := by
  induction mem with
  | nil => rfl
  | cons p t ih =>
    obtain ⟨w, r⟩ := p
    simp only [save, List.map_cons, load, decodeEntries] at ih ⊢
    rw [decodeRecord_encodeRecord, ih]

/-- C8: saving any memory mapping whose records have non-negative counters
with `correct ≤ asked` (and an optional meaning) and loading it back yields
the same mapping. -/
theorem C8_save_load_roundtrip (mem : Memory)
    (h1 : ∀ p ∈ mem, p.2.correct ≤ p.2.asked)
    (h2 : (mem.map Prod.fst).Nodup) :
    load (save mem) = some mem := load_save mem

/-! ## Claim C7: the analyzer's duplicate clusters -/

theorem mem_firstKeys {κ : Type} [DecidableEq κ] {a : κ} {l : List κ} :
    a ∈ firstKeys l ↔ a ∈ l := by
  induction l with
  | nil => simp [firstKeys]
  | cons k t ih =>
    simp only [firstKeys, List.mem_cons, List.mem_filter, decide_eq_true_eq]
    constructor
    · rintro (rfl | ⟨h1, _⟩)
      · exact Or.inl rfl
      · exact Or.inr (ih.1 h1)
    · rintro (rfl | h)
      · exact Or.inl rfl
      · by_cases hk : a = k
        · exact Or.inl hk
        · exact Or.inr ⟨ih.2 h, hk⟩

/-- C7: `analyze` groups defined entries by word and keeps exactly the
groups of size `> 1` as word-duplicate clusters (given the parser's
invariant that defined entries carry a non-empty word), groups defined
entries by the `(meaning, partOfSpeech)` pair and keeps exactly the groups
of size `> 1` as meaning-duplicate clusters; two defined entries with word
`"mira"` and differing meanings form exactly one word-duplicate cluster of
size 2, and two entries sharing a meaning but differing in part of speech
form no meaning-duplicate cluster. -/
theorem C7_analyze_duplicates (entries : List VocabEntry)
    (hinv : ∀ e ∈ entries, e.is_defined = true → e.selik_word ≠ "") :
    (∀ w c, (w, c) ∈ selik_duplicates entries ↔
      (c = entries.filter (fun e => e.is_defined && decide (e.selik_word = w)) ∧
        1 < c.length)) ∧
    (∀ k c, (k, c) ∈ meaning_duplicates entries ↔
      (c = entries.filter (fun e => e.is_defined &&
          decide ((e.chinese_meaning, e.part_of_speech) = k)) ∧
        1 < c.length)) ∧
    selik_duplicates
      [⟨1, "l1", "mira", "山", "", true, "f"⟩,
       ⟨2, "l2", "mira", "水", "", true, "f"⟩] =
      [("mira", [⟨1, "l1", "mira", "山", "", true, "f"⟩,
        ⟨2, "l2", "mira", "水", "", true, "f"⟩])] ∧
    meaning_duplicates
      [⟨1, "l1", "a", "山", "v.", true, "f"⟩,
       ⟨2, "l2", "b", "山", "n.", true, "f"⟩] = [] := by
  have hgroup : ∀ w : String,
      ((entries.filter fun e => e.is_defined).filter
        fun e => decide (e.selik_word ≠ "")).filter
          (fun e => decide (e.selik_word = w)) =
      entries.filter (fun e => e.is_defined && decide (e.selik_word = w)) := by
    intro w
    rw [List.filter_filter, List.filter_filter]
    refine List.filter_congr ?_
    intro e he
    cases hd : e.is_defined
    · simp [hd]
    · simp [hd, decide_eq_true (hinv e he hd)]
  have hgroupM : ∀ k : String × String,
      (entries.filter fun e => e.is_defined).filter
        (fun e => decide ((e.chinese_meaning, e.part_of_speech) = k)) =
      entries.filter (fun e => e.is_defined &&
        decide ((e.chinese_meaning, e.part_of_speech) = k)) := by
    intro k
    rw [List.filter_filter]
    refine List.filter_congr ?_
    intro e _
    cases hd : e.is_defined <;> simp [hd]
  refine ⟨?_, ?_, by decide, by decide⟩
  · intro w c
    constructor
    · intro h
      obtain ⟨hmem, hlen⟩ := List.mem_filter.1 h
      obtain ⟨w', _, heq⟩ := List.mem_map.1 hmem
      obtain ⟨rfl, rfl⟩ : w' = w ∧
          ((entries.filter fun e => e.is_defined).filter
            fun e => decide (e.selik_word ≠ "")).filter
              (fun e => decide (e.selik_word = w')) = c :=
        ⟨congrArg Prod.fst heq, congrArg Prod.snd heq⟩
      exact ⟨(hgroup w').symm ▸ rfl, by simpa using hlen⟩
    · rintro ⟨rfl, hlen⟩
      have hne : entries.filter
          (fun e => e.is_defined && decide (e.selik_word = w)) ≠ [] := by
        intro hnil
        rw [hnil] at hlen
        simp at hlen
      obtain ⟨e, he⟩ := List.exists_mem_of_ne_nil _ hne
      obtain ⟨heent, hef⟩ := List.mem_filter.1 he
      rw [Bool.and_eq_true, decide_eq_true_eq] at hef
      have hwne : e.selik_word ≠ "" := hinv e heent hef.1
      have hewE : e ∈ (entries.filter fun e => e.is_defined).filter
          fun e => decide (e.selik_word ≠ "") :=
        List.mem_filter.2 ⟨List.mem_filter.2 ⟨heent, hef.1⟩, decide_eq_true hwne⟩
      have hkey : w ∈ firstKeys
          (((entries.filter fun e => e.is_defined).filter
            fun e => decide (e.selik_word ≠ "")).map fun e => e.selik_word) :=
        mem_firstKeys.2 (List.mem_map.2 ⟨e, hewE, hef.2⟩)
      refine List.mem_filter.2 ⟨List.mem_map.2 ⟨w, hkey, ?_⟩, ?_⟩
      · rw [hgroup w]
      · simpa using hlen
  · intro k c
    constructor
    · intro h
      obtain ⟨hmem, hlen⟩ := List.mem_filter.1 h
      obtain ⟨k', _, heq⟩ := List.mem_map.1 hmem
      obtain ⟨rfl, rfl⟩ : k' = k ∧
          (entries.filter fun e => e.is_defined).filter
            (fun e => decide ((e.chinese_meaning, e.part_of_speech) = k')) = c :=
        ⟨congrArg Prod.fst heq, congrArg Prod.snd heq⟩
      exact ⟨(hgroupM k').symm ▸ rfl, by simpa using hlen⟩
    · rintro ⟨rfl, hlen⟩
      have hne : entries.filter (fun e => e.is_defined &&
          decide ((e.chinese_meaning, e.part_of_speech) = k)) ≠ [] := by
        intro hnil
        rw [hnil] at hlen
        simp at hlen
      obtain ⟨e, he⟩ := List.exists_mem_of_ne_nil _ hne
      obtain ⟨heent, hef⟩ := List.mem_filter.1 he
      rw [Bool.and_eq_true, decide_eq_true_eq] at hef
      have heD : e ∈ entries.filter fun e => e.is_defined :=
        List.mem_filter.2 ⟨heent, hef.1⟩
      have hkey : k ∈ firstKeys
          ((entries.filter fun e => e.is_defined).map
            fun e => (e.chinese_meaning, e.part_of_speech)) :=
        mem_firstKeys.2 (List.mem_map.2 ⟨e, heD, hef.2⟩)
      refine List.mem_filter.2 ⟨List.mem_map.2 ⟨k, hkey, ?_⟩, ?_⟩
      · rw [hgroupM k]
      · simpa using hlen

/-! ## Witnesses: each hypothesis-bearing claim theorem applied at a
concrete input -/

theorem C1_witness :
    parse_line "3. ora pelan 走 v." 1 "f" =
      ⟨1, "3. ora pelan 走 v.", "ora pelan", "走", "v.", true, "f"⟩ :=
  (C1_parse_line_defined "3. ora pelan 走 v." 1 "f" 2
    (by decide) (by decide) (by decide) (by decide)).2.2.2

theorem C2_witness :
    select_words [("A", "mA"), ("B", "mB")]
      [("A", ⟨10, 10, none⟩), ("B", ⟨0, 0, none⟩)] none =
      [("B", "mB"), ("A", "mA")] :=
  (C2_select_words_file_mode [("A", "mA"), ("B", "mB")]
    [("A", ⟨10, 10, none⟩), ("B", ⟨0, 0, none⟩)] 1
    (by decide) (by decide)).2.2.2.2

theorem C3_witness :
    quizRun [("A", "m")] ["Q"] [] = ([], ["A"]) ∧
    quizRun [("B", "mB")] ["B"] [] =
      ((quizRun [] [] (answerWord [] "B" "mB" (strip "B"))).1,
        "B" :: (quizRun [] [] (answerWord [] "B" "mB" (strip "B"))).2) :=
  ⟨(C3_quiz_step "A" "m" [] "Q" [] []).1 (by decide),
    ((C3_quiz_step "B" "mB" [] "B" [] []).2.1 (by decide)).1⟩

theorem C4_witness :
    select_words [] [("A", ⟨5, 5, some "mA"⟩), ("B", ⟨4, 1, some "mB"⟩)] none =
      [("B", "mB")] :=
  (C4_select_words_memory_mode
    [("A", ⟨5, 5, some "mA"⟩), ("B", ⟨4, 1, some "mB"⟩)] (by decide)).2.2

theorem C5_witness :
    parse_line "7. v." 1 "f" = ⟨1, "7. v.", "", "v.", "", false, "f"⟩ :=
  C5_lone_pos_marker "7. v." 1 "f" "v." (by decide) (by decide)

theorem C6_witness :
    lookup "w" (answerWord [("w", ⟨1, 0, some "m0"⟩)] "w" "m2" "x") =
      some ⟨1 + 1, 0 + (if "x" = "w" then 1 else 0), some "m0"⟩ :=
  (C6_meaning_first_seen [("w", ⟨1, 0, some "m0"⟩)] "w" "m2" "x").2.1
    ⟨1, 0, some "m0"⟩ (by decide)

theorem C7_witness :
    selik_duplicates
      [⟨1, "l1", "mira", "山", "", true, "f"⟩,
       ⟨2, "l2", "mira", "水", "", true, "f"⟩] =
      [("mira", [⟨1, "l1", "mira", "山", "", true, "f"⟩,
        ⟨2, "l2", "mira", "水", "", true, "f"⟩])] ∧
    meaning_duplicates
      [⟨1, "l1", "a", "山", "v.", true, "f"⟩,
       ⟨2, "l2", "b", "山", "n.", true, "f"⟩] = [] :=
  ⟨(C7_analyze_duplicates [] (by decide)).2.2.1,
    (C7_analyze_duplicates [] (by decide)).2.2.2⟩

theorem C8_witness :
    load (save [("ora pelan", ⟨3, 2, some "走"⟩), ("mira", ⟨1, 0, none⟩)]) =
      some [("ora pelan", ⟨3, 2, some "走"⟩), ("mira", ⟨1, 0, none⟩)] :=
  C8_save_load_roundtrip
    [("ora pelan", ⟨3, 2, some "走"⟩), ("mira", ⟨1, 0, none⟩)]
    (by decide) (by decide)

theorem C9_witness :
    lookup "A" (quizRun [("A", "m")] ["A"] [("A", ⟨2, 1, none⟩)]).1 =
      some ⟨3, 2, none⟩ := by
  obtain ⟨r₁, h1, ha, hc⟩ := (C9_record_invariant [("A", "m")] ["A"]
    [("A", ⟨2, 1, none⟩)] (by decide)).2 "A" ⟨2, 1, none⟩ (by decide)
  have h2 : lookup "A" (quizRun [("A", "m")] ["A"] [("A", ⟨2, 1, none⟩)]).1 =
      some ⟨3, 2, none⟩ := by decide
  exact h2

theorem C10_witness :
    quizRun [("Q", "mq")] [" Q "] [] = ([], ["Q"]) :=
  (C10_quit_word_unscored "Q" "mq" (Or.inr rfl) " Q " (by decide) [] [] []).1

end Selik
